import Mathlib

set_option linter.unusedVariables false

namespace CrdGen

/-! Shallow embedding of `src/gen/schema.go` of dixler/crd2pulumi.

Decoded JSON/YAML documents are modelled by `Value`; a Go
`map[string]interface` value is an association list of string keys.
Go maps have no deterministic iteration order; the model fixes list
order as one determinization (no claim depends on map order).
-/

/-- Untyped JSON-like value: the shape of a decoded OpenAPI schema
fragment held in a Go interface value. -/
inductive Value : Type where
  | vnull : Value
  | vbool (b : Bool) : Value
  | vnum (n : Int) : Value
  | vstr (s : String) : Value
  | varr (xs : List Value) : Value
  | vobj (fields : List (String × Value)) : Value

/-- A Go `map[string]interface` document node. -/
abbrev JObj := List (String × Value)

/-- First-match association-list lookup (Go map keys are unique, so
first match equals the unique binding). -/
def lookupPair {α : Type} : List (String × α) → String → Option α
  | [], _ => none
  | (k2, v) :: rest, k => if k2 = k then some v else lookupPair rest k

/-- Go map assignment `m[k] = v`: any old binding for `k` is dropped and
the new binding recorded.  Position of the binding is a determinization
(Go maps are unordered). -/
def insertPair {α : Type} (m : List (String × α)) (k : String) (v : α) : List (String × α) :=
  m.filter (fun p => p.1 != k) ++ [(k, v)]

/-- Go `delete(m, k)`. -/
def erasePair {α : Type} (m : List (String × α)) (k : String) : List (String × α) :=
  m.filter (fun p => p.1 != k)

theorem lookupPair_append_none {α : Type} {a : List (String × α)} {k : String}
    (b : List (String × α)) (h : lookupPair a k = none) :
    lookupPair (a ++ b) k = lookupPair b k := by
  induction a with
  | nil => rfl
  | cons p rest ih =>
    simp only [lookupPair] at h ⊢
    by_cases h2 : p.1 = k
    · obtain ⟨k2, v2⟩ := p
      simp only at h2
      rw [if_pos h2] at h
      exact absurd h (by simp)
    · obtain ⟨k2, v2⟩ := p
      simp only at h2
      rw [if_neg h2] at h ⊢
      exact ih h

theorem lookupPair_filter_ne {α : Type} (m : List (String × α)) {k k2 : String}
    (h : ¬ k2 = k) : lookupPair (m.filter (fun p => p.1 != k2)) k = lookupPair m k := by
  induction m with
  | nil => rfl
  | cons p rest ih =>
    obtain ⟨k3, v3⟩ := p
    by_cases h3 : k3 = k2
    · subst h3
      simp only [List.filter_cons, bne_self_eq_false, Bool.false_eq_true, if_false, lookupPair]
      rw [if_neg h]
      exact ih
    · simp only [List.filter_cons]
      rw [show ((k3 != k2 : Bool) = true) by simpa using h3]
      simp only [if_true, lookupPair]
      by_cases h4 : k3 = k
      · rw [if_pos h4, if_pos h4]
      · rw [if_neg h4, if_neg h4]
        exact ih

theorem lookupPair_filter_self {α : Type} (m : List (String × α)) (k : String) :
    lookupPair (m.filter (fun p => p.1 != k)) k = none := by
  induction m with
  | nil => rfl
  | cons p rest ih =>
    obtain ⟨k2, v2⟩ := p
    by_cases h2 : k2 = k
    · subst h2
      simpa [List.filter_cons] using ih
    · simp only [List.filter_cons]
      rw [show ((k2 != k : Bool) = true) by simpa using h2]
      simp only [if_true, lookupPair]
      rw [if_neg h2]
      exact ih

theorem lookupPair_append_some {α : Type} {a : List (String × α)} {k : String} {w : α}
    (b : List (String × α)) (h : lookupPair a k = some w) :
    lookupPair (a ++ b) k = some w := by
  induction a with
  | nil => simp [lookupPair] at h
  | cons p rest ih =>
    obtain ⟨k2, v2⟩ := p
    simp only [lookupPair, List.cons_append] at h ⊢
    by_cases h2 : k2 = k
    · rw [if_pos h2] at h ⊢
      exact h
    · rw [if_neg h2] at h ⊢
      exact ih h

theorem lookupPair_insertPair {α : Type} (m : List (String × α)) (k k' : String) (v : α) :
    lookupPair (insertPair m k v) k' = if k = k' then some v else lookupPair m k' := by
  unfold insertPair
  by_cases h : k = k'
  · subst h
    rw [lookupPair_append_none _ (lookupPair_filter_self m k)]
    simp [lookupPair]
  · rw [if_neg h]
    have hne : lookupPair (m.filter (fun p => p.1 != k)) k' = lookupPair m k' :=
      lookupPair_filter_ne m h
    cases hl : lookupPair (m.filter (fun p => p.1 != k)) k' with
    | none =>
      rw [lookupPair_append_none _ hl]
      simp only [lookupPair, if_neg h]
      rw [← hne, hl]
    | some w =>
      rw [lookupPair_append_some _ hl, ← hne, hl]

theorem lookupPair_eq_none_of_not_mem {α : Type} (m : List (String × α)) (k : String)
    (h : ∀ p ∈ m, p.1 ≠ k) : lookupPair m k = none := by
  induction m with
  | nil => rfl
  | cons p rest ih =>
    simp only [lookupPair]
    rw [if_neg (h p (by simp))]
    exact ih (fun q hq => h q (by simp [hq]))

theorem filter_eq_self_of_not_key {α : Type} (m : List (String × α)) (k : String)
    (h : ∀ p ∈ m, p.1 ≠ k) : m.filter (fun p => p.1 != k) = m := by
  induction m with
  | nil => rfl
  | cons p rest ih =>
    simp only [List.filter_cons]
    rw [show ((p.1 != k : Bool) = true) by simpa using h p (by simp)]
    simp only [if_true]
    rw [ih (fun q hq => h q (by simp [hq]))]

/-- Coerce an interface value to a Go map, yielding the nil map for any
non-map value (as the unstructured helpers do). -/
def asObj : Value → JObj
  | .vobj fs => fs
  | _ => []

/-- Coerce an interface value to a Go map, `none` when it is not a map
(the nil map, which `GetTypeSpec` tests with `schema == nil`). -/
def asObjOpt : Value → Option JObj
  | .vobj fs => some fs
  | _ => none

/-- Model of `unstruct.NestedMap(s, k)`: the value under `k` when it is
a map, `found = false` otherwise. -/
def nestedMap (s : JObj) (k : String) : Option JObj :=
  (lookupPair s k).bind asObjOpt

/-- Model of `unstruct.NestedBool(s, k)`. -/
def nestedBool (s : JObj) (k : String) : Option Bool :=
  (lookupPair s k).bind (fun v => match v with | .vbool b => some b | _ => none)

/-- Model of `unstruct.NestedString(s, k)`. -/
def nestedString (s : JObj) (k : String) : Option String :=
  (lookupPair s k).bind (fun v => match v with | .vstr t => some t | _ => none)

/-- Model of `unstruct.NestedString` followed by Go zero-value defaulting
(the callers read the returned string even when not found). -/
def nestedStringD (s : JObj) (k : String) : String :=
  (nestedString s k).getD ""

/-- All elements that are strings, `none` if any is not. -/
def allStrings : List Value → Option (List String)
  | [] => some []
  | .vstr t :: rest => (allStrings rest).map (t :: ·)
  | _ :: _ => none

/-- Model of `unstruct.NestedStringSlice(s, k)`. -/
def nestedStringSlice (s : JObj) (k : String) : Option (List String) :=
  (lookupPair s k).bind (fun v => match v with | .varr xs => allStrings xs | _ => none)

/-- Model of `unstruct.NestedFieldNoCopy(s, k)`. -/
def nestedField (s : JObj) (k : String) : Option Value :=
  lookupPair s k

/-- All elements that are maps, `none` if any is not. -/
def allObjs : List Value → Option (List JObj)
  | [] => some []
  | .vobj fs :: rest => (allObjs rest).map (fs :: ·)
  | _ :: _ => none

/-- Modelled from the spec: the repository's `NestedMapSlice` helper is
not under `src/`; per §4.1 a combinator key holds a list of sub-schema
nodes, so the helper returns the slice of maps under `k` when every
element is a map (an empty list qualifies), and reports not-found
otherwise. -/
def nestedMapSlice (s : JObj) (k : String) : Option (List JObj) :=
  (lookupPair s k).bind (fun v => match v with | .varr xs => allObjs xs | _ => none)

/-! Structural measures used only to justify termination of the type
resolver: `sizeFs` is the node count and `ccFs` counts occurrences of
combinator keys (`oneOf`, `allOf`, `anyOf`). -/

mutual
def sizeV : Value → Nat
  | .vobj fs => 1 + sizeFs fs
  | .varr xs => 1 + sizeL xs
  | _ => 1

def sizeFs : List (String × Value) → Nat
  | [] => 0
  | (_, v) :: rest => 1 + sizeV v + sizeFs rest

def sizeL : List Value → Nat
  | [] => 0
  | v :: rest => 1 + sizeV v + sizeL rest
end

/-- Cost contributed by a key: 1 for a combinator key. -/
def combKeyN (k : String) : Nat :=
  if k = "oneOf" ∨ k = "allOf" ∨ k = "anyOf" then 1 else 0

mutual
def ccV : Value → Nat
  | .vobj fs => ccFs fs
  | .varr xs => ccL xs
  | _ => 0

def ccFs : List (String × Value) → Nat
  | [] => 0
  | (k, v) :: rest => combKeyN k + ccV v + ccFs rest

def ccL : List Value → Nat
  | [] => 0
  | v :: rest => ccV v + ccL rest
end

def sizeOpt : Option JObj → Nat
  | none => 0
  | some fs => sizeFs fs

def ccOpt : Option JObj → Nat
  | none => 0
  | some fs => ccFs fs

/-- Size of a slice of maps. -/
def sizeObjsL : List JObj → Nat
  | [] => 0
  | o :: rest => 1 + sizeFs o + sizeObjsL rest

def ccObjsL : List JObj → Nat
  | [] => 0
  | o :: rest => ccFs o + ccObjsL rest

theorem sizeV_pos (v : Value) : 0 < sizeV v := by
  cases v <;> simp [sizeV]

theorem lookupPair_size {fs : JObj} {k : String} {v : Value}
    (h : lookupPair fs k = some v) : 1 + sizeV v ≤ sizeFs fs := by
  induction fs with
  | nil => simp [lookupPair] at h
  | cons p rest ih =>
    obtain ⟨k2, v2⟩ := p
    simp only [lookupPair] at h
    by_cases h2 : k2 = k
    · rw [if_pos h2] at h
      cases h
      simp only [sizeFs]
      omega
    · rw [if_neg h2] at h
      have := ih h
      simp only [sizeFs]
      omega

theorem lookupPair_cc {fs : JObj} {k : String} {v : Value}
    (h : lookupPair fs k = some v) : combKeyN k + ccV v ≤ ccFs fs := by
  induction fs with
  | nil => simp [lookupPair] at h
  | cons p rest ih =>
    obtain ⟨k2, v2⟩ := p
    simp only [lookupPair] at h
    by_cases h2 : k2 = k
    · rw [if_pos h2] at h
      cases h
      subst h2
      simp only [ccFs]
      omega
    · rw [if_neg h2] at h
      have := ih h
      simp only [ccFs]
      omega

theorem allObjs_size {xs : List Value} {objs : List JObj}
    (h : allObjs xs = some objs) : sizeObjsL objs + xs.length ≤ sizeL xs ∧ ccObjsL objs = ccL xs := by
  induction xs generalizing objs with
  | nil =>
    simp [allObjs] at h
    subst h
    simp [sizeObjsL, ccObjsL, sizeL, ccL]
  | cons x rest ih =>
    cases x with
    | vobj fs =>
      simp only [allObjs, Option.map_eq_some'] at h
      obtain ⟨objs0, h0, rfl⟩ := h
      have := ih h0
      simp only [sizeObjsL, ccObjsL, sizeL, ccL, sizeV, ccV, List.length_cons]
      omega
    | vnull => simp [allObjs] at h
    | vbool b => simp [allObjs] at h
    | vnum n => simp [allObjs] at h
    | vstr t => simp [allObjs] at h
    | varr ys => simp [allObjs] at h

theorem allStrings_length {xs : List Value} {l : List String}
    (h : allStrings xs = some l) : l.length = xs.length ∧ sizeL xs = 2 * xs.length ∧ ccL xs = 0 := by
  induction xs generalizing l with
  | nil =>
    simp [allStrings] at h
    subst h
    simp [sizeL, ccL]
  | cons x rest ih =>
    cases x with
    | vstr t =>
      simp only [allStrings, Option.map_eq_some'] at h
      obtain ⟨l0, h0, rfl⟩ := h
      have := ih h0
      simp only [sizeL, ccL, sizeV, ccV, List.length_cons]
      omega
    | vnull => simp [allStrings] at h
    | vbool b => simp [allStrings] at h
    | vnum n => simp [allStrings] at h
    | vobj fs => simp [allStrings] at h
    | varr ys => simp [allStrings] at h

/-! Pulumi schema model (`pschema.TypeSpec`, `pschema.PropertySpec`,
`pschema.ComplexTypeSpec`), restricted to the fields `schema.go` reads
or writes.  `TypeSpec` is recursive (Items, AdditionalProperties, OneOf)
so it is an inductive with accessor functions. -/

inductive TypeSpec : Type where
  | mk (type : String) (ref : String) (items : Option TypeSpec)
      (additionalProperties : Option TypeSpec) (oneOfL : List TypeSpec) : TypeSpec

def TypeSpec.type : TypeSpec → String
  | .mk t _ _ _ _ => t

def TypeSpec.ref : TypeSpec → String
  | .mk _ r _ _ _ => r

def TypeSpec.items : TypeSpec → Option TypeSpec
  | .mk _ _ i _ _ => i

def TypeSpec.additionalProperties : TypeSpec → Option TypeSpec
  | .mk _ _ _ a _ => a

def TypeSpec.oneOf : TypeSpec → List TypeSpec
  | .mk _ _ _ _ o => o

/-- Go constant `anyTypeRef`. -/
def anyTypeRef : String := "pulumi.json#/Any"

/-- Go package-level `anyTypeSpec`. -/
def anyTypeSpec : TypeSpec := ⟨"", anyTypeRef, none, none, []⟩

/-- Go package-level `arbitraryJSONTypeSpec` (`Object` = "object"). -/
def arbitraryJSONTypeSpec : TypeSpec := ⟨"object", "", none, some anyTypeSpec, []⟩

/-- Go package-level `intOrStringTypeSpec`. -/
def intOrStringTypeSpec : TypeSpec :=
  ⟨"", "", none, none, [⟨"integer", "", none, none, []⟩, ⟨"string", "", none, none, []⟩]⟩

/-- `isAnyType` from `schema.go`. -/
def isAnyType (t : TypeSpec) : Bool := t.ref == anyTypeRef

/-- A primitive `pschema.TypeSpec` carrying only a type string. -/
def primSpec (t : String) : TypeSpec := ⟨t, "", none, none, []⟩

/-- `pschema.PropertySpec`: Go fields TypeSpec, Description, Default,
Const (the latter two are opaque interface values). -/
structure PropertySpec where
  typeSpec : TypeSpec
  description : String
  defaultV : Option Value
  constV : Option Value

/-- The Properties map of a registered object type.  `AddType` always
builds a fresh map (`own`), but `GetTypes` can install the Go
package-level `emptySpec`, whose single shared Properties map is
aliased by every registration that used it; `shared` marks exactly
that map. -/
inductive PropsRef : Type where
  | own (props : List (String × PropertySpec)) : PropsRef
  | shared : PropsRef

/-- `pschema.ComplexTypeSpec` (embedding its ObjectTypeSpec): fields
Type, Properties, Required, Description as used by `schema.go`. -/
structure ComplexTypeSpec where
  type : String
  propsRef : PropsRef
  required : List String
  description : String

/-- The `types` registry: Go `map[string]pschema.ComplexTypeSpec`. -/
abbrev TypesMap := List (String × ComplexTypeSpec)

/-- Go package-level `emptySpec`: Type "object" with an (initially)
empty Properties map.  The map itself is the one shared `PropsRef.shared`
cell. -/
def sharedEmptySpec : ComplexTypeSpec := ⟨"object", .shared, [], ""⟩

/-- Read a Properties reference through the current contents of the
shared `emptySpec` map. -/
def materializeProps (shared : List (String × PropertySpec)) : PropsRef → List (String × PropertySpec)
  | .own props => props
  | .shared => shared

/-- Go `strings.Title` word separator on ASCII: everything but letters,
digits and underscore. -/
def goIsSep (c : Char) : Bool := !(c.isAlpha || c.isDigit || c == '_')

def titleGoAux : Bool → List Char → List Char
  | _, [] => []
  | prevSep, c :: rest =>
    (if prevSep && c.isAlpha then c.toUpper else c) :: titleGoAux (goIsSep c) rest

/-- Model of `strings.Title` (ASCII): uppercase every letter that begins
a word. -/
def titleGo (s : String) : String := ⟨titleGoAux true s.data⟩

/-! `CombineSchemas` (schema.go lines 319-352). -/

/-- The `properties` sub-map of a schema, the empty (nil) map when
absent or of the wrong shape. -/
def propsOf (s : JObj) : JObj := (nestedMap s "properties").getD []

/-- Inner loop of `CombineSchemas`: fold one schema's properties into
the accumulator; a non-map property value is stored as the nil map
(modelled by the empty object, indistinguishable to every reader in
this package). -/
def combineProps1 (acc : JObj) : JObj → JObj
  | [] => acc
  | (pname, pval) :: rest => combineProps1 (insertPair acc pname (.vobj (asObj pval))) rest

/-- Outer loop of `CombineSchemas` over the schema slice. -/
def combinePropsAll (acc : JObj) : List JObj → JObj
  | [] => acc
  | s :: rest => combinePropsAll (combineProps1 acc (propsOf s)) rest

/-- The concatenation of all sub-schemas' `required` slices, in order. -/
def combinedRequiredAll : List JObj → List String
  | [] => []
  | s :: rest => ((nestedStringSlice s "required").getD []) ++ combinedRequiredAll rest

/-- `CombineSchemas` from `schema.go`: nil for no schemas, the schema
itself for one, otherwise a synthetic object schema whose properties
are the union of all inputs (later schemas win) and whose `required`
is the concatenation of all inputs' required lists iff
`combineRequired`. -/
def CombineSchemas (combineRequired : Bool) (schemas : List JObj) : Option JObj :=
  match schemas with
  | [] => none
  | [s] => some s
  | _ =>
    some ([("type", Value.vstr "object"),
           ("properties", Value.vobj (combinePropsAll [] schemas))] ++
      (if combineRequired then
        [("required", Value.varr ((combinedRequiredAll schemas).map Value.vstr))]
      else []))

/-! Measure bounds for `CombineSchemas`, needed to justify termination
of the type resolver: the combined schema drops the combinator key that
produced it, so its combinator count is strictly below the parent
schema's. -/

theorem ccFs_append (a b : JObj) : ccFs (a ++ b) = ccFs a + ccFs b := by
  induction a with
  | nil => simp [ccFs]
  | cons p rest ih =>
    obtain ⟨k, v⟩ := p
    simp only [List.cons_append, ccFs, List.append_eq, ih]
    omega

theorem sizeFs_append (a b : JObj) : sizeFs (a ++ b) = sizeFs a + sizeFs b := by
  induction a with
  | nil => simp [sizeFs]
  | cons p rest ih =>
    obtain ⟨k, v⟩ := p
    simp only [List.cons_append, sizeFs, List.append_eq, ih]
    omega

theorem ccFs_filter_le (m : JObj) (p : String × Value → Bool) :
    ccFs (m.filter p) ≤ ccFs m := by
  induction m with
  | nil => simp [ccFs]
  | cons q rest ih =>
    obtain ⟨k, v⟩ := q
    by_cases hp : p (k, v)
    · simp only [List.filter_cons, hp, if_true, ccFs]
      omega
    · simp only [List.filter_cons, hp, Bool.false_eq_true, if_false, ccFs]
      omega

theorem sizeFs_filter_le (m : JObj) (p : String × Value → Bool) :
    sizeFs (m.filter p) ≤ sizeFs m := by
  induction m with
  | nil => simp [sizeFs]
  | cons q rest ih =>
    obtain ⟨k, v⟩ := q
    by_cases hp : p (k, v)
    · simp only [List.filter_cons, hp, if_true, sizeFs]
      omega
    · simp only [List.filter_cons, hp, Bool.false_eq_true, if_false, sizeFs]
      omega

theorem ccFs_insertPair_le (m : JObj) (k : String) (v : Value) :
    ccFs (insertPair m k v) ≤ ccFs m + combKeyN k + ccV v := by
  unfold insertPair
  rw [ccFs_append]
  have := ccFs_filter_le m (fun p => p.1 != k)
  simp only [ccFs]
  omega

theorem sizeFs_insertPair_le (m : JObj) (k : String) (v : Value) :
    sizeFs (insertPair m k v) ≤ sizeFs m + 1 + sizeV v := by
  unfold insertPair
  rw [sizeFs_append]
  have := sizeFs_filter_le m (fun p => p.1 != k)
  simp only [sizeFs]
  omega

theorem asObj_cc_le (v : Value) : ccFs (asObj v) ≤ ccV v := by
  cases v <;> simp [asObj, ccFs, ccV]

theorem asObj_size_le (v : Value) : 1 + sizeFs (asObj v) ≤ sizeV v := by
  cases v <;> simp [asObj, sizeFs, sizeV]

theorem combineProps1_cc_le (props : JObj) : ∀ acc : JObj,
    ccFs (combineProps1 acc props) ≤ ccFs acc + ccFs props := by
  induction props with
  | nil => intro acc; simp [combineProps1]
  | cons p rest ih =>
    intro acc
    obtain ⟨pname, pval⟩ := p
    simp only [combineProps1, ccFs]
    have h1 := ih (insertPair acc pname (.vobj (asObj pval)))
    have h2 := ccFs_insertPair_le acc pname (.vobj (asObj pval))
    have h3 := asObj_cc_le pval
    simp only [ccV] at h2
    omega

theorem combineProps1_size_le (props : JObj) : ∀ acc : JObj,
    sizeFs (combineProps1 acc props) ≤ sizeFs acc + sizeFs props := by
  induction props with
  | nil => intro acc; simp [combineProps1]
  | cons p rest ih =>
    intro acc
    obtain ⟨pname, pval⟩ := p
    simp only [combineProps1, sizeFs]
    have h1 := ih (insertPair acc pname (.vobj (asObj pval)))
    have h2 := sizeFs_insertPair_le acc pname (.vobj (asObj pval))
    have h3 := asObj_size_le pval
    simp only [sizeV] at h2
    omega

theorem propsOf_cc_le (s : JObj) : ccFs (propsOf s) ≤ ccFs s := by
  unfold propsOf nestedMap
  cases hl : lookupPair s "properties" with
  | none => simp [ccFs]
  | some v =>
    cases v with
    | vobj fs =>
      have := lookupPair_cc hl
      simp only [Option.bind, asObjOpt, Option.getD, ccV] at *
      omega
    | vnull => simp [asObjOpt, ccFs]
    | vbool b => simp [asObjOpt, ccFs]
    | vnum n => simp [asObjOpt, ccFs]
    | vstr t => simp [asObjOpt, ccFs]
    | varr xs => simp [asObjOpt, ccFs]

theorem ccL_map_vstr (l : List String) : ccL (l.map Value.vstr) = 0 := by
  induction l with
  | nil => simp [ccL]
  | cons t rest ih => simp [ccL, ccV, ih]

/-- Size contributed by one field of a map. -/
def fieldCost (s : JObj) (k : String) : Nat :=
  match lookupPair s k with
  | some v => 1 + sizeV v
  | none => 0

theorem fieldCost_le (s : JObj) (k : String) : fieldCost s k ≤ sizeFs s := by
  unfold fieldCost
  cases h : lookupPair s k with
  | none => simp
  | some v => simpa using lookupPair_size h

theorem fieldCost_two_le (s : JObj) {k1 k2 : String} (hne : k1 ≠ k2) :
    fieldCost s k1 + fieldCost s k2 ≤ sizeFs s := by
  induction s with
  | nil => simp [fieldCost, lookupPair]
  | cons p rest ih =>
    obtain ⟨k, v⟩ := p
    simp only [fieldCost, lookupPair] at *
    by_cases hk1 : k = k1
    · rw [if_pos hk1]
      rw [if_neg (fun h : k = k2 => hne (hk1 ▸ h ▸ rfl))]
      have : fieldCost rest k2 ≤ sizeFs rest := fieldCost_le rest k2
      simp only [fieldCost] at this
      simp only [sizeFs]
      omega
    · rw [if_neg hk1]
      by_cases hk2 : k = k2
      · rw [if_pos hk2]
        have : fieldCost rest k1 ≤ sizeFs rest := fieldCost_le rest k1
        simp only [fieldCost] at this
        simp only [sizeFs]
        omega
      · rw [if_neg hk2]
        simp only [sizeFs]
        omega

theorem propsOf_size_le_cost (s : JObj) : 1 + sizeFs (propsOf s) ≤ fieldCost s "properties" + 1 := by
  unfold propsOf nestedMap fieldCost
  cases h : lookupPair s "properties" with
  | none => simp [sizeFs]
  | some v =>
    have := asObj_size_le v
    cases v <;> simp only [Option.some_bind, asObjOpt, Option.getD_some, Option.getD_none] <;>
      simp only [asObj, sizeFs] at this ⊢ <;> omega

theorem required_len_le_cost (s : JObj) :
    2 * ((nestedStringSlice s "required").getD []).length ≤ fieldCost s "required" := by
  unfold nestedStringSlice fieldCost
  cases h : lookupPair s "required" with
  | none => simp
  | some v =>
    cases v with
    | varr xs =>
      cases hs : allStrings xs with
      | none => simp [hs]
      | some l =>
        have hx := allStrings_length hs
        simp only [Option.some_bind, hs, Option.getD_some, sizeV]
        omega
    | vnull => simp
    | vbool b => simp
    | vnum n => simp
    | vstr t => simp
    | vobj fs => simp

/-- Per-schema budget: the extracted properties and required lists fit
inside the schema's own size. -/
theorem props_required_size_le (s : JObj) :
    sizeFs (propsOf s) + 2 * ((nestedStringSlice s "required").getD []).length ≤ sizeFs s := by
  have h1 := propsOf_size_le_cost s
  have h2 := required_len_le_cost s
  have h3 := fieldCost_two_le s (show "properties" ≠ "required" by decide)
  omega

theorem propsOf_size_le (s : JObj) : sizeFs (propsOf s) ≤ sizeFs s := by
  have h1 := propsOf_size_le_cost s
  have h2 := fieldCost_le s "properties"
  omega

theorem nestedString_pos {s : JObj} {k t : String} (h : nestedString s k = some t) :
    0 < sizeFs s := by
  unfold nestedString at h
  cases hl : lookupPair s k with
  | none => rw [hl] at h; exact absurd h (by simp)
  | some v =>
    have := lookupPair_size hl
    have := sizeV_pos v
    omega

theorem nestedMap_some_bounds {s : JObj} {k : String} {fs2 : JObj}
    (h : nestedMap s k = some fs2) : sizeFs fs2 + 2 ≤ sizeFs s ∧ ccFs fs2 ≤ ccFs s := by
  unfold nestedMap at h
  cases hl : lookupPair s k with
  | none => rw [hl] at h; exact absurd h (by simp)
  | some v =>
    rw [hl] at h
    cases v with
    | vobj fs3 =>
      simp only [Option.some_bind, asObjOpt, Option.some.injEq] at h
      subst h
      have h1 := lookupPair_size hl
      have h2 := lookupPair_cc hl
      simp only [sizeV, ccV] at h1 h2
      omega
    | vnull => simp [asObjOpt] at h
    | vbool b => simp [asObjOpt] at h
    | vnum n => simp [asObjOpt] at h
    | vstr t => simp [asObjOpt] at h
    | varr xs => simp [asObjOpt] at h

theorem nestedMap_size_lt {s : JObj} (k : String) (h : 0 < sizeFs s) :
    sizeOpt (nestedMap s k) < sizeFs s := by
  cases h2 : nestedMap s k with
  | none => simpa [sizeOpt] using h
  | some fs2 =>
    have := nestedMap_some_bounds h2
    simp only [sizeOpt]
    omega

theorem nestedMap_cc_le (s : JObj) (k : String) : ccOpt (nestedMap s k) ≤ ccFs s := by
  cases h2 : nestedMap s k with
  | none => simp [ccOpt]
  | some fs2 =>
    have := nestedMap_some_bounds h2
    simp only [ccOpt]
    omega

theorem nestedMapSlice_bounds {s : JObj} {k : String} {objs : List JObj}
    (hk : combKeyN k = 1) (h : nestedMapSlice s k = some objs) :
    sizeObjsL objs + 2 ≤ sizeFs s ∧ ccObjsL objs + 1 ≤ ccFs s := by
  unfold nestedMapSlice at h
  cases hl : lookupPair s k with
  | none => rw [hl] at h; exact absurd h (by simp)
  | some v =>
    rw [hl] at h
    cases v with
    | varr xs =>
      simp only [Option.some_bind] at h
      have h1 := lookupPair_size hl
      have h2 := lookupPair_cc hl
      have h3 := allObjs_size h
      simp only [sizeV, ccV] at h1 h2
      omega
    | vnull => simp at h
    | vbool b => simp at h
    | vnum n => simp at h
    | vstr t => simp at h
    | vobj fs => simp at h

theorem asObjOpt_size_le (v : Value) : sizeOpt (asObjOpt v) + 1 ≤ sizeV v := by
  cases v <;> simp only [asObjOpt, sizeOpt, sizeV] <;> omega

theorem asObjOpt_cc_le (v : Value) : ccOpt (asObjOpt v) ≤ ccV v := by
  cases v <;> simp [asObjOpt, ccOpt, ccV]

theorem sizeL_map_vstr (l : List String) : sizeL (l.map Value.vstr) = 2 * l.length := by
  induction l with
  | nil => simp [sizeL]
  | cons t rest ih =>
    simp only [List.map_cons, sizeL, sizeV, ih, List.length_cons]
    omega

theorem combinePropsAll_cc_le (objs : List JObj) : ∀ acc : JObj,
    ccFs (combinePropsAll acc objs) ≤ ccFs acc + ccObjsL objs := by
  induction objs with
  | nil => intro acc; simp [combinePropsAll, ccObjsL]
  | cons s rest ih =>
    intro acc
    simp only [combinePropsAll, ccObjsL]
    have h1 := ih (combineProps1 acc (propsOf s))
    have h2 := combineProps1_cc_le (propsOf s) acc
    have h3 := propsOf_cc_le s
    omega

theorem combinePropsAll_size_le (objs : List JObj) : ∀ acc : JObj,
    sizeFs (combinePropsAll acc objs) + 2 * (combinedRequiredAll objs).length ≤
      sizeFs acc + sizeObjsL objs := by
  induction objs with
  | nil => intro acc; simp [combinePropsAll, combinedRequiredAll, sizeObjsL]
  | cons s rest ih =>
    intro acc
    simp only [combinePropsAll, combinedRequiredAll, sizeObjsL, List.length_append]
    have h1 := ih (combineProps1 acc (propsOf s))
    have h2 := combineProps1_size_le (propsOf s) acc
    have h3 := props_required_size_le s
    omega

theorem combine_cc_le (b : Bool) (objs : List JObj) :
    ccOpt (CombineSchemas b objs) ≤ ccObjsL objs := by
  cases objs with
  | nil => simp [CombineSchemas, ccOpt, ccObjsL]
  | cons s1 tail =>
    cases tail with
    | nil => simp [CombineSchemas, ccOpt, ccObjsL]
    | cons s2 rest =>
      have h1 := combinePropsAll_cc_le (s1 :: s2 :: rest) []
      simp only [CombineSchemas, ccOpt, ccFs_append]
      cases b with
      | true =>
        simp only [if_true]
        simp only [ccFs, ccV, ccL_map_vstr]
        have : combKeyN "type" = 0 := by decide
        rw [this]
        have : combKeyN "properties" = 0 := by decide
        rw [this]
        have : combKeyN "required" = 0 := by decide
        rw [this]
        simp only [ccFs] at h1
        omega
      | false =>
        simp only [Bool.false_eq_true, if_false]
        simp only [ccFs, ccV]
        have : combKeyN "type" = 0 := by decide
        rw [this]
        have : combKeyN "properties" = 0 := by decide
        rw [this]
        simp only [ccFs] at h1
        omega

theorem combine_size_le (b : Bool) (objs : List JObj) :
    sizeOpt (CombineSchemas b objs) ≤ sizeObjsL objs + 6 := by
  cases objs with
  | nil => simp [CombineSchemas, sizeOpt, sizeObjsL]
  | cons s1 tail =>
    cases tail with
    | nil =>
      simp only [CombineSchemas, sizeOpt, sizeObjsL]
      omega
    | cons s2 rest =>
      have h1 := combinePropsAll_size_le (s1 :: s2 :: rest) []
      simp only [CombineSchemas, sizeOpt, sizeFs_append]
      cases b with
      | true =>
        simp only [if_true]
        simp only [sizeFs, sizeV, sizeL_map_vstr]
        simp only [sizeFs] at h1
        omega
      | false =>
        simp only [Bool.false_eq_true, if_false]
        simp only [sizeFs, sizeV]
        simp only [sizeFs] at h1
        omega

theorem items_meas {s : JObj} {t : String} (hT : nestedString s "type" = some t) (k : String) :
    sizeOpt (nestedMap s k) + 8 * ccOpt (nestedMap s k) <
      sizeOpt (some s) + 8 * ccOpt (some s) := by
  have h0 := nestedString_pos hT
  have h1 := nestedMap_size_lt k h0
  have h2 := nestedMap_cc_le s k
  have e1 : sizeOpt (some s) = sizeFs s := rfl
  have e2 : ccOpt (some s) = ccFs s := rfl
  rw [e1, e2]
  omega

theorem addType_meas (s : JObj) :
    4 * (sizeFs (propsOf s) + 8 * ccFs (propsOf s)) < 4 * (sizeFs s + 8 * ccFs s) + 1 := by
  have h1 := propsOf_size_le s
  have h2 := propsOf_cc_le s
  omega

/-! The type resolver (schema.go lines 164-312): `GetTypeSpec`,
`AddType` and their two loops, as mutually recursive pure functions
threading the `types` registry.  Go iterates property maps in
unspecified order; the model iterates in list order (one fixed
determinization).  Termination: combining `allOf`/`anyOf` sub-schemas
drops the combinator key (strictly fewer combinator keys) while every
other recursive call descends into a strictly smaller subterm, measured
by `4 * (size + 8 * combinator count) + phase`. -/

mutual

/-- `GetTypeSpec` (schema.go lines 203-312): resolve a schema node to a
`pschema.TypeSpec`, registering discovered object types in `types`.
Returns the descriptor and the updated registry. -/
def GetTypeSpec (schema : Option JObj) (name : String) (types : TypesMap) :
    TypeSpec × TypesMap :=
  match schema with
  | none => (anyTypeSpec, types)
  | some s =>
    if (nestedBool s "x-kubernetes-int-or-string").getD false then
      (intOrStringTypeSpec, types)
    else
      match hOne : nestedMapSlice s "oneOf" with
      | some oneOfs => resolveOneOf oneOfs name 0 types []
      | none =>
        match hAll : nestedMapSlice s "allOf" with
        | some allOfs => GetTypeSpec (CombineSchemas true allOfs) name types
        | none =>
          match hAny : nestedMapSlice s "anyOf" with
          | some anyOfs => GetTypeSpec (CombineSchemas false anyOfs) name types
          | none =>
            if (nestedBool s "x-kubernetes-preserve-unknown-fields").getD false then
              (arbitraryJSONTypeSpec, types)
            else
              match hT : nestedString s "type" with
              | none => (anyTypeSpec, types)
              | some schemaType =>
                if schemaType = "array" then
                  let r := GetTypeSpec (nestedMap s "items") name types
                  (⟨"array", "", some r.1, none, []⟩, r.2)
                else if schemaType = "object" then
                  let types1 := AddType s name types
                  match hAP : nestedMap s "additionalProperties" with
                  | some ap =>
                    let r := GetTypeSpec (some ap) name types1
                    (⟨"object", "", none, some r.1, []⟩, r.2)
                  | none =>
                    if (nestedBool s "additionalProperties").getD false then
                      (⟨"object", "", none, some anyTypeSpec, []⟩, types1)
                    else if (nestedMap s "properties").isNone then
                      (arbitraryJSONTypeSpec, types1)
                    else
                      (⟨"object", "#/types/" ++ name, none, none, []⟩, types1)
                else if schemaType = "integer" ∨ schemaType = "boolean" ∨
                    schemaType = "string" ∨ schemaType = "number" then
                  (primSpec schemaType, types)
                else
                  (anyTypeSpec, types)
termination_by 4 * (sizeOpt schema + 8 * ccOpt schema) + 2
decreasing_by
· have hb := nestedMapSlice_bounds (show combKeyN "oneOf" = 1 by decide) hOne
  simp_wf
  simp only [sizeOpt, ccOpt]
  omega
· have hb := nestedMapSlice_bounds (show combKeyN "allOf" = 1 by decide) hAll
  have hc := combine_cc_le true allOfs
  have hs := combine_size_le true allOfs
  simp_wf
  simp only [sizeOpt, ccOpt] at *
  omega
· have hb := nestedMapSlice_bounds (show combKeyN "anyOf" = 1 by decide) hAny
  have hc := combine_cc_le false anyOfs
  have hs := combine_size_le false anyOfs
  simp_wf
  simp only [sizeOpt, ccOpt] at *
  omega
· simp_wf
  exact items_meas hT "items"
· simp_wf
  simp only [sizeOpt, ccOpt]
  omega
· have hb := nestedMap_some_bounds hAP
  simp_wf
  simp only [sizeOpt, ccOpt] at *
  omega

/-- The `oneOf` loop of `GetTypeSpec` (schema.go lines 215-228):
resolve each alternative under `<name>OneOf<i>`; collapse to any if an
alternative is any, else collect the union in order. -/
def resolveOneOf (l : List JObj) (name : String) (i : Nat) (types : TypesMap)
    (acc : List TypeSpec) : TypeSpec × TypesMap :=
  match l with
  | [] => (⟨"", "", none, none, acc⟩, types)
  | o :: rest =>
    let r := GetTypeSpec (some o) (name ++ "OneOf" ++ toString i) types
    if isAnyType r.1 then (anyTypeSpec, r.2)
    else resolveOneOf rest name (i + 1) r.2 (acc ++ [r.1])
termination_by 4 * (sizeObjsL l + 8 * ccObjsL l)
decreasing_by
· simp_wf
  simp only [sizeObjsL, ccObjsL, sizeOpt, ccOpt]
  omega
· simp_wf
  simp only [sizeObjsL, ccObjsL]
  omega

/-- `AddType` (schema.go lines 167-197): convert a schema to a
`ComplexTypeSpec` under `name`, recursively resolving every property,
and insert it into the registry (overwriting any previous entry). -/
def AddType (s : JObj) (name : String) (types : TypesMap) : TypesMap :=
  let r := addProps (propsOf s) name types []
  let foundProperties := (nestedMap s "properties").isSome
  let schemaType0 := nestedStringD s "type"
  let schemaType := if foundProperties && (schemaType0 == "") then "object" else schemaType0
  insertPair r.2 name
    ⟨schemaType, .own r.1, (nestedStringSlice s "required").getD [], nestedStringD s "description"⟩
termination_by 4 * (sizeFs s + 8 * ccFs s) + 1
decreasing_by
· simp_wf
  exact addType_meas _

/-- The property loop of `AddType` (schema.go lines 173-183): resolve
each property schema under `<name><PropertyName titled>` and record its
description and default verbatim. -/
def addProps (props : JObj) (name : String) (types : TypesMap)
    (acc : List (String × PropertySpec)) : List (String × PropertySpec) × TypesMap :=
  match props with
  | [] => (acc, types)
  | (pname, pval) :: rest =>
    let r := GetTypeSpec (asObjOpt pval) (name ++ titleGo pname) types
    addProps rest name r.2
      (insertPair acc pname
        ⟨r.1, nestedStringD (asObj pval) "description", lookupPair (asObj pval) "default", none⟩)
termination_by 4 * (sizeFs props + 8 * ccFs props)
decreasing_by
· have h1 := asObjOpt_size_le pval
  have h2 := asObjOpt_cc_le pval
  simp_wf
  simp only [sizeFs, ccFs]
  omega
· have h1 := sizeV_pos pval
  simp_wf
  simp only [sizeFs, ccFs]
  omega

end

/-! The Resource Assembler: `GetTypes` (schema.go lines 73-108).

Go aliasing modelled faithfully: the package-level `emptySpec` value
carries ONE Properties map; `types[resourceToken] = emptySpec` stores a
struct whose Properties field references that single map, so
`types[tok].Properties[k] = v` then mutates the map shared by every
token that received `emptySpec`.  The model keeps that map as the
`shared` component of `GenState` and marks aliased registry entries
with `PropsRef.shared`. -/

/-- Go constant `objectMetaRef`. -/
def objectMetaRef : String := "#/types/kubernetes:meta/v1:ObjectMeta"

/-- Go constant `objectMetaToken`. -/
def objectMetaToken : String := "kubernetes:meta/v1:ObjectMeta"

/-- Go constant `DefaultName`. -/
def DefaultName : String := "crds"

/-- Modelled from the spec: the resource token (glossary, §3) is a
stable identifier derived from the (group, version, kind) triple; the
deriving helper is not under `src/`.  The package prefix consumed by
the Package Builder is the segment before the first colon. -/
def getToken (group version kind : String) : String :=
  group ++ ":" ++ version ++ ":" ++ kind

/-- Modelled from the spec (§6 input interface): one CRD description,
carrying group, kind and a per-version validation schema.  The struct
itself is declared outside `src/`. -/
structure CustomResourceGenerator where
  group : String
  kind : String
  schemas : List (String × JObj)

/-- Modelled from the spec (§6): the set of resource descriptors one
translation run walks. -/
structure PackageGenerator where
  customResourceGenerators : List CustomResourceGenerator

/-- The mutable state of a `GetTypes` run: the `types` registry plus
the contents of the package-level `emptySpec` Properties map. -/
structure GenState where
  types : TypesMap
  shared : List (String × PropertySpec)

/-- A string-typed `pschema.PropertySpec` with a Const value. -/
def strPropConst (c : String) : PropertySpec :=
  ⟨⟨"string", "", none, none, []⟩, "", none, some (.vstr c)⟩

/-- The injected `metadata` property: a reference to the well-known
object-metadata type. -/
def metadataProp : PropertySpec := ⟨⟨"", objectMetaRef, none, none, []⟩, "", none, none⟩

/-- `types[token].Properties[pname] = p`: writes through the Properties
reference of the registered struct — into the shared `emptySpec` map
when the entry was registered from `emptySpec`.  A missing entry would
be a nil-map write (Go panic); unreachable under `GetTypes`'s guard. -/
def setProp (st : GenState) (token pname : String) (p : PropertySpec) : GenState :=
  match lookupPair st.types token with
  | none => st
  | some cts =>
    match cts.propsRef with
    | .own props =>
      ⟨insertPair st.types token ⟨cts.type, .own (insertPair props pname p), cts.required, cts.description⟩,
        st.shared⟩
    | .shared => ⟨st.types, insertPair st.shared pname p⟩

/-- One iteration of the version loop of `GetTypes` (schema.go lines
76-105). -/
def processVersion (group kind : String) (st : GenState) (version : String) (schema : JObj) :
    GenState :=
  let token := getToken group version kind
  let foundProperties := (nestedMap schema "properties").isSome
  let st1 := if foundProperties then (⟨AddType schema token st.types, st.shared⟩ : GenState) else st
  let preserve := (nestedBool schema "x-kubernetes-preserve-unknown-fields").getD false
  let st2 := if preserve then (⟨insertPair st1.types token sharedEmptySpec, st1.shared⟩ : GenState) else st1
  if foundProperties || preserve then
    let st3 := setProp st2 token "apiVersion" (strPropConst (group ++ "/" ++ version))
    let st4 := setProp st3 token "kind" (strPropConst kind)
    setProp st4 token "metadata" metadataProp
  else st2

/-- The per-CRD loop of `GetTypes`. -/
def processCRG (st : GenState) (crg : CustomResourceGenerator) : GenState :=
  crg.schemas.foldl (fun st2 p => processVersion crg.group crg.kind st2 p.1 p.2) st

/-- `GetTypes` (schema.go lines 73-108), threading the registry and the
shared `emptySpec` map. -/
def GetTypes (pg : PackageGenerator) (st : GenState) : GenState :=
  pg.customResourceGenerators.foldl processCRG st

/-- A `GetTypes` call at program start: fresh `types` map, package-level
`emptySpec` Properties map still empty. -/
def runGetTypes (pg : PackageGenerator) : GenState := GetTypes pg ⟨[], []⟩

/-! The Package Builder: `genPackage` (schema.go lines 113-157). -/

/-- Modelled from the spec: version string handling is out of scope
(§1); the package-level `Version` constant (declared outside `src/`) is
fixed arbitrarily. -/
def Version : String := "0.0.0"

/-- `pschema.ResourceSpec` restricted to the fields `genPackage`
writes: the embedded ObjectTypeSpec of the referenced type plus its
Properties as InputProperties (both reference the same map, as in Go). -/
structure ResourceSpec where
  type : String
  propsRef : PropsRef
  required : List String
  description : String
  inputProperties : PropsRef

/-- `pschema.PackageSpec` restricted to the fields `genPackage` sets. -/
structure PackageSpec where
  name : String
  version : String
  types : TypesMap
  resources : List (String × ResourceSpec)
  allowedPackageNames : List String

/-- The Go zero value of `pschema.ComplexTypeSpec`, produced by indexing
`types` at an absent token. -/
def zeroComplexTypeSpec : ComplexTypeSpec := ⟨"", .own [], [], ""⟩

/-- The stub object-metadata type `genPackage` registers:
Type "object", no properties. -/
def metaStub : ComplexTypeSpec := ⟨"object", .own [], [], ""⟩

/-- Modelled from the spec (§4.4): the namespace prefix of a resource
token, the segment before the first colon (Go:
`tokens.ModuleMember(baseRef).Package()`, an external library). -/
def tokenPackage (token : String) : String := (token.splitOn ":").headD ""

/-- The resource-spec map of `genPackage` (lines 124-131), keyed by
resource token in input order. -/
def buildResources (types : TypesMap) (resourceTokens : List String) :
    List (String × ResourceSpec) :=
  resourceTokens.foldl (fun resources baseRef =>
    let cts := (lookupPair types baseRef).getD zeroComplexTypeSpec
    insertPair resources baseRef ⟨cts.type, cts.propsRef, cts.required, cts.description, cts.propsRef⟩) []

/-- Set insertion for the `packages` key set (Go map keys are unique). -/
def insertKey (l : List String) (k : String) : List String :=
  if l.contains k then l else l ++ [k]

/-- The distinct package names referenced (lines 122, 130). -/
def buildPackages (resourceTokens : List String) : List String :=
  resourceTokens.foldl (fun acc t => insertKey acc (tokenPackage t)) [DefaultName, "kubernetes"]

/-- Insertion into a sorted list, for `sort.Strings`. -/
def insSorted (x : String) : List String → List String
  | [] => [x]
  | y :: rest => if x ≤ y then x :: y :: rest else y :: insSorted x rest

/-- `sort.Strings` over the distinct package names. -/
def sortStrings (l : List String) : List String := l.foldr insSorted []

/-- The `pschema.PackageSpec` document `genPackage` assembles (lines
122-145) from a registry and the resource token list. -/
def buildPkgSpec (types : TypesMap) (resourceTokens : List String) : PackageSpec :=
  ⟨DefaultName, Version, types, buildResources types resourceTokens,
    sortStrings (buildPackages resourceTokens)⟩

/-- `genPackage` (schema.go lines 113-157).  The downstream validator
`pschema.ImportSpec` is an external collaborator (§6) and is passed in
as `importSpec`; `emptyPkg` stands for the empty `pschema.Package`
value returned alongside an error.  The result carries the Go pair
(package, error) — `none` meaning a nil error — together with the
`types` map as left behind (the Go function mutates the caller's map). -/
def genPackage {α : Type} (importSpec : PackageSpec → Except String α) (emptyPkg : α)
    (types : TypesMap) (resourceTokens : List String) (includeObjectMetaType : Bool) :
    (α × Option String) × TypesMap :=
  let types1 := if includeObjectMetaType then insertPair types objectMetaToken metaStub else types
  let pkgSpec := buildPkgSpec types1 resourceTokens
  match importSpec pkgSpec with
  | .error e => ((emptyPkg, some ("could not import spec: " ++ e)), types1)
  | .ok pkg =>
    let types2 := if includeObjectMetaType then erasePair types1 objectMetaToken else types1
    ((pkg, none), types2)

/-- Modelled from the spec: the per-CRD resource token list handed to
the Package Builder is computed outside `src/`; per §4.3 a version
whose schema has neither a `properties` map nor the
preserve-unknown-fields flag is silently skipped — no token appears in
the output resource list — while every other version contributes its
resource token.  The guard is the same pair of reads `GetTypes`
performs. -/
def versionTokens (crg : CustomResourceGenerator) : List String :=
  crg.schemas.foldr (fun p acc =>
    if (nestedMap p.2 "properties").isSome ||
       (nestedBool p.2 "x-kubernetes-preserve-unknown-fields").getD false
    then getToken crg.group p.1 crg.kind :: acc else acc) []

/-- Modelled from the spec (§2, §4.4): the Package Builder receives the
concatenation of all CRDs' resource token lists. -/
def resourceTokensOf (pg : PackageGenerator) : List String :=
  pg.customResourceGenerators.foldr (fun crg acc => versionTokens crg ++ acc) []

/-! Branch lemmas for the resolver: one rewriting lemma per rule of the
resolution order, each conditioned on the earlier rules not firing. -/

theorem getTypeSpec_nil (name : String) (types : TypesMap) :
    GetTypeSpec none name types = (anyTypeSpec, types) := by
  rw [GetTypeSpec]

theorem getTypeSpec_oneOf {s : JObj} {l : List JObj} (name : String) (types : TypesMap)
    (h1 : (nestedBool s "x-kubernetes-int-or-string").getD false = false)
    (h2 : nestedMapSlice s "oneOf" = some l) :
    GetTypeSpec (some s) name types = resolveOneOf l name 0 types [] := by
  rw [GetTypeSpec]
  simp only [h1, Bool.false_eq_true, if_false]
  split
  · simp_all
  · simp_all

theorem getTypeSpec_allOf {s : JObj} {l : List JObj} (name : String) (types : TypesMap)
    (h1 : (nestedBool s "x-kubernetes-int-or-string").getD false = false)
    (h2 : nestedMapSlice s "oneOf" = none)
    (h3 : nestedMapSlice s "allOf" = some l) :
    GetTypeSpec (some s) name types = GetTypeSpec (CombineSchemas true l) name types := by
  rw [GetTypeSpec]
  simp only [h1, Bool.false_eq_true, if_false]
  split
  · simp_all
  · split
    · simp_all
    · simp_all

theorem getTypeSpec_anyOf {s : JObj} {l : List JObj} (name : String) (types : TypesMap)
    (h1 : (nestedBool s "x-kubernetes-int-or-string").getD false = false)
    (h2 : nestedMapSlice s "oneOf" = none)
    (h3 : nestedMapSlice s "allOf" = none)
    (h4 : nestedMapSlice s "anyOf" = some l) :
    GetTypeSpec (some s) name types = GetTypeSpec (CombineSchemas false l) name types := by
  rw [GetTypeSpec]
  simp only [h1, Bool.false_eq_true, if_false]
  split
  · simp_all
  · split
    · simp_all
    · split
      · simp_all
      · simp_all

theorem getTypeSpec_preserve {s : JObj} (name : String) (types : TypesMap)
    (h1 : (nestedBool s "x-kubernetes-int-or-string").getD false = false)
    (h2 : nestedMapSlice s "oneOf" = none)
    (h3 : nestedMapSlice s "allOf" = none)
    (h4 : nestedMapSlice s "anyOf" = none)
    (h5 : (nestedBool s "x-kubernetes-preserve-unknown-fields").getD false = true) :
    GetTypeSpec (some s) name types = (arbitraryJSONTypeSpec, types) := by
  rw [GetTypeSpec]
  simp only [h1, Bool.false_eq_true, if_false]
  split
  · simp_all
  · split
    · simp_all
    · split
      · simp_all
      · simp [h5]

theorem getTypeSpec_object_ref {s : JObj} (name : String) (types : TypesMap)
    (h1 : (nestedBool s "x-kubernetes-int-or-string").getD false = false)
    (h2 : nestedMapSlice s "oneOf" = none)
    (h3 : nestedMapSlice s "allOf" = none)
    (h4 : nestedMapSlice s "anyOf" = none)
    (h5 : (nestedBool s "x-kubernetes-preserve-unknown-fields").getD false = false)
    (hT : nestedString s "type" = some "object")
    (hAP : nestedMap s "additionalProperties" = none)
    (hAPB : (nestedBool s "additionalProperties").getD false = false)
    (hP : (nestedMap s "properties").isSome = true) :
    GetTypeSpec (some s) name types =
      (⟨"object", "#/types/" ++ name, none, none, []⟩, AddType s name types) := by
  rw [GetTypeSpec]
  simp only [h1, Bool.false_eq_true, if_false]
  split
  · simp_all
  · split
    · simp_all
    · split
      · simp_all
      · simp only [h5, Bool.false_eq_true, if_false]
        split
        · simp_all
        · next schemaType heq =>
          rw [hT] at heq
          cases heq
          obtain ⟨props, hpp⟩ := Option.isSome_iff_exists.mp hP
          simp [hpp, hAPB]
          split
          · simp_all
          · simp [hpp]

/-- `AddType` unfolded: the final registry is the property-loop registry
with the completed object definition inserted last under `name`. -/
theorem addType_unfold (s : JObj) (name : String) (types : TypesMap) :
    AddType s name types =
      insertPair (addProps (propsOf s) name types []).2 name
        ⟨(if (nestedMap s "properties").isSome && (nestedStringD s "type" == "") then "object"
          else nestedStringD s "type"),
         .own (addProps (propsOf s) name types []).1,
         (nestedStringSlice s "required").getD [],
         nestedStringD s "description"⟩ := by
  rw [AddType]

theorem allStrings_map_vstr (l : List String) : allStrings (l.map Value.vstr) = some l := by
  induction l with
  | nil => rfl
  | cons t rest ih => simp [allStrings, ih]

/-- Reference sequential resolution of a `oneOf` alternatives list: the
spec's "resolve each alternative under `<proposedName>OneOf<index>`",
with no early exit, threading the registry left to right. -/
def resolveSeq (l : List JObj) (name : String) (i : Nat) (types : TypesMap) :
    List TypeSpec × TypesMap :=
  match l with
  | [] => ([], types)
  | o :: rest =>
    let r := GetTypeSpec (some o) (name ++ "OneOf" ++ toString i) types
    let rr := resolveSeq rest name (i + 1) r.2
    (r.1 :: rr.1, rr.2)

theorem resolveOneOf_no_any {l : List JObj} {name : String} {i : Nat} {types : TypesMap}
    (h : ∀ t ∈ (resolveSeq l name i types).1, isAnyType t = false) : ∀ acc : List TypeSpec,
    resolveOneOf l name i types acc =
      (⟨"", "", none, none, acc ++ (resolveSeq l name i types).1⟩, (resolveSeq l name i types).2) := by
  induction l generalizing i types with
  | nil =>
    intro acc
    rw [resolveOneOf]
    simp [resolveSeq]
  | cons o rest ih =>
    intro acc
    simp only [resolveSeq] at h ⊢
    have hhead := h (GetTypeSpec (some o) (name ++ "OneOf" ++ toString i) types).1 (by simp)
    rw [resolveOneOf]
    simp only [hhead, Bool.false_eq_true, if_false]
    rw [ih (fun t ht => h t (by simp [ht]))]
    simp

theorem resolveOneOf_any {l : List JObj} {name : String} {i : Nat} {types : TypesMap}
    (h : ∃ t ∈ (resolveSeq l name i types).1, isAnyType t = true) : ∀ acc : List TypeSpec,
    (resolveOneOf l name i types acc).1 = anyTypeSpec := by
  induction l generalizing i types with
  | nil => simp [resolveSeq] at h
  | cons o rest ih =>
    intro acc
    simp only [resolveSeq] at h
    rw [resolveOneOf]
    by_cases hh : isAnyType (GetTypeSpec (some o) (name ++ "OneOf" ++ toString i) types).1
    · simp [hh]
    · simp only [hh, Bool.false_eq_true, if_false]
      simp only [List.mem_cons] at h
      obtain ⟨t, ht, hany⟩ := h
      cases ht with
      | inl hteq => rw [hteq] at hany; exact absurd hany (by simp [hh])
      | inr htail => exact ih ⟨t, htail, hany⟩ _

/-! Claim theorems. -/

/-- C1: a schema node carrying both `x-kubernetes-preserve-unknown-fields:
true` and a `properties` map — on which no earlier rule of §4.1's fixed
order fires (rules 1-5: nil schema, int-or-string, oneOf, allOf, anyOf)
— resolves to the arbitrary-JSON object map `(object-map any)`, and
rule 9 (object) is never reached: the registry is returned untouched,
so no object type is registered despite the properties map. -/
theorem claim1_preserve_precedence (s : JObj) (name : String) (types : TypesMap)
    (hProps : (nestedMap s "properties").isSome = true)
    (hPreserve : (nestedBool s "x-kubernetes-preserve-unknown-fields").getD false = true)
    (h1 : (nestedBool s "x-kubernetes-int-or-string").getD false = false)
    (h2 : nestedMapSlice s "oneOf" = none)
    (h3 : nestedMapSlice s "allOf" = none)
    (h4 : nestedMapSlice s "anyOf" = none) :
    GetTypeSpec (some s) name types = (arbitraryJSONTypeSpec, types) :=
  getTypeSpec_preserve name types h1 h2 h3 h4 hPreserve

theorem claim1_witness :
    GetTypeSpec (some [("x-kubernetes-preserve-unknown-fields", Value.vbool true),
        ("type", Value.vstr "object"),
        ("properties", Value.vobj [("a", Value.vobj [("type", Value.vstr "string")])])])
      "Foo" [] = (arbitraryJSONTypeSpec, []) :=
  claim1_preserve_precedence _ "Foo" [] rfl rfl rfl rfl rfl rfl

/-- C2: for a schema with a `oneOf` list, `GetTypeSpec` resolves the
alternatives sequentially under `<name>OneOf<index>` (the reference
`resolveSeq`, written from the spec's words); if no alternative
resolves to the any type the result is the union of the alternatives'
descriptors in list order with the registry as threaded through all of
them, and if some alternative resolves to any the whole result is the
any type. -/
theorem claim2_oneOf_union (s : JObj) (l : List JObj) (name : String) (types : TypesMap)
    (h1 : (nestedBool s "x-kubernetes-int-or-string").getD false = false)
    (h2 : nestedMapSlice s "oneOf" = some l) :
    ((∀ t ∈ (resolveSeq l name 0 types).1, isAnyType t = false) →
      GetTypeSpec (some s) name types =
        (⟨"", "", none, none, (resolveSeq l name 0 types).1⟩, (resolveSeq l name 0 types).2))
    ∧ ((∃ t ∈ (resolveSeq l name 0 types).1, isAnyType t = true) →
      (GetTypeSpec (some s) name types).1 = anyTypeSpec) := by
  constructor
  · intro h
    rw [getTypeSpec_oneOf name types h1 h2]
    simpa using resolveOneOf_no_any h []
  · intro h
    rw [getTypeSpec_oneOf name types h1 h2]
    exact resolveOneOf_any h []

theorem claim2_witness :
    GetTypeSpec (some [("oneOf", Value.varr [Value.vobj [("type", Value.vstr "string")],
        Value.vobj [("type", Value.vstr "integer")]])]) "X" [] =
      (⟨"", "", none, none, [primSpec "string", primSpec "integer"]⟩, []) := by
  have h := (claim2_oneOf_union [("oneOf", Value.varr [Value.vobj [("type", Value.vstr "string")],
      Value.vobj [("type", Value.vstr "integer")]])]
      [[("type", Value.vstr "string")], [("type", Value.vstr "integer")]] "X" [] rfl rfl).1
  have e1 : resolveSeq [[("type", Value.vstr "string")], [("type", Value.vstr "integer")]] "X" 0 [] =
      ([primSpec "string", primSpec "integer"], []) := by
    rw [resolveSeq]
    rw [GetTypeSpec]
    rw [resolveSeq]
    rw [GetTypeSpec]
    rw [resolveSeq]
    simp [nestedBool, nestedMapSlice, nestedString, lookupPair, primSpec]
  rw [e1] at h
  exact h (by simp [primSpec, isAnyType, anyTypeRef, TypeSpec.ref])

/-- C3: resolving `(allOf (s1 s2))` registers under the proposed name an
object type whose required list is the concatenation (with disjoint
inputs, the union) of the two sub-schemas' required lists, while
resolving `(anyOf (s1 s2))` of the same two sub-schemas registers an
object type with an empty required list; both resolve to an object
reference to the proposed name. -/
theorem claim3_allOf_merges_required (s1 s2 : JObj) (r1 r2 : List String)
    (name : String) (types : TypesMap)
    (h1 : nestedStringSlice s1 "required" = some r1)
    (h2 : nestedStringSlice s2 "required" = some r2)
    (hdisj : ∀ x ∈ r1, x ∉ r2) :
    (∃ props, lookupPair
        (GetTypeSpec (some [("allOf", Value.varr [Value.vobj s1, Value.vobj s2])]) name types).2 name
        = some ⟨"object", .own props, r1 ++ r2, ""⟩)
    ∧ (∃ props, lookupPair
        (GetTypeSpec (some [("anyOf", Value.varr [Value.vobj s1, Value.vobj s2])]) name types).2 name
        = some ⟨"object", .own props, [], ""⟩)
    ∧ (GetTypeSpec (some [("allOf", Value.varr [Value.vobj s1, Value.vobj s2])]) name types).1
        = ⟨"object", "#/types/" ++ name, none, none, []⟩
    ∧ (GetTypeSpec (some [("anyOf", Value.varr [Value.vobj s1, Value.vobj s2])]) name types).1
        = ⟨"object", "#/types/" ++ name, none, none, []⟩ := by
  have hreq : combinedRequiredAll [s1, s2] = r1 ++ r2 := by
    simp [combinedRequiredAll, h1, h2]
  have hcAll : CombineSchemas true [s1, s2] =
      some [("type", Value.vstr "object"),
            ("properties", Value.vobj (combinePropsAll [] [s1, s2])),
            ("required", Value.varr ((r1 ++ r2).map Value.vstr))] := by
    simp [CombineSchemas, hreq]
  have hcAny : CombineSchemas false [s1, s2] =
      some [("type", Value.vstr "object"),
            ("properties", Value.vobj (combinePropsAll [] [s1, s2]))] := by
    simp [CombineSchemas]
  have hgAll : GetTypeSpec (some [("allOf", Value.varr [Value.vobj s1, Value.vobj s2])]) name types
      = GetTypeSpec (CombineSchemas true [s1, s2]) name types :=
    getTypeSpec_allOf name types rfl rfl rfl
  have hgAny : GetTypeSpec (some [("anyOf", Value.varr [Value.vobj s1, Value.vobj s2])]) name types
      = GetTypeSpec (CombineSchemas false [s1, s2]) name types :=
    getTypeSpec_anyOf name types rfl rfl rfl rfl
  have hO1 : GetTypeSpec (some [("type", Value.vstr "object"),
        ("properties", Value.vobj (combinePropsAll [] [s1, s2])),
        ("required", Value.varr ((r1 ++ r2).map Value.vstr))]) name types =
      (⟨"object", "#/types/" ++ name, none, none, []⟩,
       AddType [("type", Value.vstr "object"),
        ("properties", Value.vobj (combinePropsAll [] [s1, s2])),
        ("required", Value.varr ((r1 ++ r2).map Value.vstr))] name types) :=
    getTypeSpec_object_ref name types rfl rfl rfl rfl rfl rfl rfl rfl rfl
  have hO2 : GetTypeSpec (some [("type", Value.vstr "object"),
        ("properties", Value.vobj (combinePropsAll [] [s1, s2]))]) name types =
      (⟨"object", "#/types/" ++ name, none, none, []⟩,
       AddType [("type", Value.vstr "object"),
        ("properties", Value.vobj (combinePropsAll [] [s1, s2]))] name types) :=
    getTypeSpec_object_ref name types rfl rfl rfl rfl rfl rfl rfl rfl rfl
  rw [hgAll, hgAny, hcAll, hcAny, hO1, hO2]
  refine ⟨?_, ?_, rfl, rfl⟩
  · have hl : lookupPair (AddType [("type", Value.vstr "object"),
        ("properties", Value.vobj (combinePropsAll [] [s1, s2])),
        ("required", Value.varr ((r1 ++ r2).map Value.vstr))] name types) name =
        some ⟨"object", .own (addProps (propsOf [("type", Value.vstr "object"),
          ("properties", Value.vobj (combinePropsAll [] [s1, s2])),
          ("required", Value.varr ((r1 ++ r2).map Value.vstr))]) name types []).1,
          r1 ++ r2, ""⟩ := by
      have hstr : allStrings (r1.map Value.vstr ++ r2.map Value.vstr) = some (r1 ++ r2) := by
        rw [← List.map_append]
        exact allStrings_map_vstr _
      rw [addType_unfold, lookupPair_insertPair]
      simp [nestedStringSlice, lookupPair, hstr, nestedStringD, nestedString,
        nestedMap, asObjOpt]
    exact ⟨_, hl⟩
  · have hl : lookupPair (AddType [("type", Value.vstr "object"),
        ("properties", Value.vobj (combinePropsAll [] [s1, s2]))] name types) name =
        some ⟨"object", .own (addProps (propsOf [("type", Value.vstr "object"),
          ("properties", Value.vobj (combinePropsAll [] [s1, s2]))]) name types []).1,
          [], ""⟩ := by
      rw [addType_unfold, lookupPair_insertPair]
      simp [nestedStringSlice, lookupPair, allStrings_map_vstr, nestedStringD, nestedString,
        nestedMap, asObjOpt]
    exact ⟨_, hl⟩

theorem claim3_witness :
    (∃ props, lookupPair
        (GetTypeSpec (some [("allOf", Value.varr
          [Value.vobj [("required", Value.varr [Value.vstr "a"])],
           Value.vobj [("required", Value.varr [Value.vstr "b"])]])]) "N" []).2 "N"
        = some ⟨"object", .own props, ["a"] ++ ["b"], ""⟩)
    ∧ (∃ props, lookupPair
        (GetTypeSpec (some [("anyOf", Value.varr
          [Value.vobj [("required", Value.varr [Value.vstr "a"])],
           Value.vobj [("required", Value.varr [Value.vstr "b"])]])]) "N" []).2 "N"
        = some ⟨"object", .own props, [], ""⟩)
    ∧ (GetTypeSpec (some [("allOf", Value.varr
          [Value.vobj [("required", Value.varr [Value.vstr "a"])],
           Value.vobj [("required", Value.varr [Value.vstr "b"])]])]) "N" []).1
        = ⟨"object", "#/types/" ++ "N", none, none, []⟩
    ∧ (GetTypeSpec (some [("anyOf", Value.varr
          [Value.vobj [("required", Value.varr [Value.vstr "a"])],
           Value.vobj [("required", Value.varr [Value.vstr "b"])]])]) "N" []).1
        = ⟨"object", "#/types/" ++ "N", none, none, []⟩ :=
  claim3_allOf_merges_required [("required", Value.varr [Value.vstr "a"])]
    [("required", Value.varr [Value.vstr "b"])] ["a"] ["b"] "N" [] rfl rfl (by decide)

/-- C10: a combinator key mapping to an empty list is found by the
slice extraction; `CombineSchemas` with zero schemas returns the absent
(nil) schema, and `GetTypeSpec` resolves that nil schema to the any
type without failing — the zero-schema case is total. -/
theorem claim10_empty_combinator (s : JObj) (name : String) (types : TypesMap)
    (h1 : (nestedBool s "x-kubernetes-int-or-string").getD false = false)
    (h2 : nestedMapSlice s "oneOf" = none) :
    (CombineSchemas true [] = none ∧ CombineSchemas false [] = none)
    ∧ (lookupPair s "allOf" = some (Value.varr []) →
        nestedMapSlice s "allOf" = some [] ∧
        GetTypeSpec (some s) name types = (anyTypeSpec, types))
    ∧ (nestedMapSlice s "allOf" = none → lookupPair s "anyOf" = some (Value.varr []) →
        nestedMapSlice s "anyOf" = some [] ∧
        GetTypeSpec (some s) name types = (anyTypeSpec, types)) := by
  refine ⟨⟨rfl, rfl⟩, ?_, ?_⟩
  · intro hAll
    have hms : nestedMapSlice s "allOf" = some [] := by
      simp [nestedMapSlice, hAll, allObjs]
    refine ⟨hms, ?_⟩
    rw [getTypeSpec_allOf name types h1 h2 hms]
    exact getTypeSpec_nil name types
  · intro hAllNone hAny
    have hms : nestedMapSlice s "anyOf" = some [] := by
      simp [nestedMapSlice, hAny, allObjs]
    refine ⟨hms, ?_⟩
    rw [getTypeSpec_anyOf name types h1 h2 hAllNone hms]
    exact getTypeSpec_nil name types

theorem claim10_witness :
    (CombineSchemas true [] = none ∧ CombineSchemas false [] = none)
    ∧ (GetTypeSpec (some [("allOf", Value.varr [])]) "Z" [] = (anyTypeSpec, [])) := by
  have h := claim10_empty_combinator [("allOf", Value.varr [])] "Z" [] rfl rfl
  exact ⟨h.1, (h.2.1 rfl).2⟩

/-! Claims about the Resource Assembler. -/

theorem processVersion_skip (group kind : String) (st : GenState) (version : String) (schema : JObj)
    (h1 : (nestedMap schema "properties").isSome = false)
    (h2 : (nestedBool schema "x-kubernetes-preserve-unknown-fields").getD false = false) :
    processVersion group kind st version schema = st := by
  simp [processVersion, h1, h2]

theorem foldlVersions_skip (g k : String) : ∀ l : List (String × JObj),
    (∀ p ∈ l, (nestedMap p.2 "properties").isSome = false ∧
      (nestedBool p.2 "x-kubernetes-preserve-unknown-fields").getD false = false) →
    ∀ st : GenState, l.foldl (fun st2 p => processVersion g k st2 p.1 p.2) st = st := by
  intro l
  induction l with
  | nil => intro h st; rfl
  | cons p rest ih =>
    intro h st
    rw [List.foldl_cons]
    have hp := h p (by simp)
    rw [processVersion_skip g k st p.1 p.2 hp.1 hp.2]
    exact ih (fun q hq => h q (by simp [hq])) st

theorem getTypes_skip : ∀ crgs : List CustomResourceGenerator,
    (∀ crg ∈ crgs, ∀ p ∈ crg.schemas, (nestedMap p.2 "properties").isSome = false ∧
      (nestedBool p.2 "x-kubernetes-preserve-unknown-fields").getD false = false) →
    ∀ st : GenState, crgs.foldl processCRG st = st := by
  intro crgs
  induction crgs with
  | nil => intro h st; rfl
  | cons crg rest ih =>
    intro h st
    rw [List.foldl_cons]
    have hcrg : processCRG st crg = st :=
      foldlVersions_skip crg.group crg.kind crg.schemas (h crg (by simp)) st
    rw [hcrg]
    exact ih (fun c hc => h c (by simp [hc])) st

theorem mem_versionTokens : ∀ (g k : String) (l : List (String × JObj)) (t : String),
    t ∈ l.foldr (fun p acc =>
      if (nestedMap p.2 "properties").isSome ||
         (nestedBool p.2 "x-kubernetes-preserve-unknown-fields").getD false
      then getToken g p.1 k :: acc else acc) [] →
    ∃ p ∈ l, ((nestedMap p.2 "properties").isSome = true ∨
      (nestedBool p.2 "x-kubernetes-preserve-unknown-fields").getD false = true)
      ∧ t = getToken g p.1 k := by
  intro g k l t
  induction l with
  | nil => intro h; simp at h
  | cons p rest ih =>
    intro h
    simp only [List.foldr_cons] at h
    by_cases hc : ((nestedMap p.2 "properties").isSome ||
        (nestedBool p.2 "x-kubernetes-preserve-unknown-fields").getD false) = true
    · rw [if_pos hc] at h
      rcases List.mem_cons.mp h with h1 | h2
      · exact ⟨p, by simp, by simpa using hc, h1⟩
      · obtain ⟨q, hq, hqual, ht⟩ := ih h2
        exact ⟨q, by simp [hq], hqual, ht⟩
    · rw [if_neg hc] at h
      obtain ⟨q, hq, hqual, ht⟩ := ih h
      exact ⟨q, by simp [hq], hqual, ht⟩

theorem mem_resourceTokensOf : ∀ (crgs : List CustomResourceGenerator) (t : String),
    t ∈ crgs.foldr (fun crg acc => versionTokens crg ++ acc) [] →
    ∃ crg ∈ crgs, t ∈ versionTokens crg := by
  intro crgs t
  induction crgs with
  | nil => intro h; simp at h
  | cons crg rest ih =>
    intro h
    simp only [List.foldr_cons] at h
    rcases List.mem_append.mp h with h1 | h2
    · exact ⟨crg, by simp, h1⟩
    · obtain ⟨c, hc, hm⟩ := ih h2
      exact ⟨c, by simp [hc], hm⟩

theorem lookupPair_buildResources_aux (types : TypesMap) : ∀ (rts : List String)
    (acc : List (String × ResourceSpec)) (t : String), t ∉ rts →
    lookupPair acc t = none →
    lookupPair (rts.foldl (fun resources baseRef =>
      let cts := (lookupPair types baseRef).getD zeroComplexTypeSpec
      insertPair resources baseRef
        ⟨cts.type, cts.propsRef, cts.required, cts.description, cts.propsRef⟩) acc) t = none := by
  intro rts
  induction rts with
  | nil => intro acc t h1 h2; exact h2
  | cons b rest ih =>
    intro acc t h1 h2
    rw [List.foldl_cons]
    apply ih _ _ (fun hm => h1 (by simp [hm]))
    rw [lookupPair_insertPair]
    rw [if_neg (fun hb => h1 (by simp [hb]))]
    exact h2

/-- A token outside the resource token list gets no entry in the
resource-spec map `genPackage` builds. -/
theorem lookupPair_buildResources_absent (types : TypesMap) (rts : List String) (t : String)
    (h : t ∉ rts) : lookupPair (buildResources types rts) t = none :=
  lookupPair_buildResources_aux types rts [] t h rfl

/-- C7: a resource descriptor version whose schema has neither a
`properties` map nor the preserve-unknown-fields flag registers
nothing: the assembler step is the identity on the registry state, and
a run over only such descriptors leaves the registry empty, so no
resource token (and no name at all) appears in it.  Moreover the token
of such a resource (when no other qualifying version of the run
produces the same token string) does not appear in the resource token
list, and hence the resource map of the package document built from
any registry has no entry under it. -/
theorem claim7_skip_unqualified :
    (∀ (group kind : String) (st : GenState) (version : String) (schema : JObj),
      (nestedMap schema "properties").isSome = false →
      (nestedBool schema "x-kubernetes-preserve-unknown-fields").getD false = false →
      processVersion group kind st version schema = st)
    ∧ (∀ pg : PackageGenerator,
      (∀ crg ∈ pg.customResourceGenerators, ∀ p ∈ crg.schemas,
        (nestedMap p.2 "properties").isSome = false ∧
        (nestedBool p.2 "x-kubernetes-preserve-unknown-fields").getD false = false) →
      runGetTypes pg = ⟨[], []⟩ ∧
      ∀ group version kind,
        lookupPair (runGetTypes pg).types (getToken group version kind) = none)
    ∧ (∀ (pg : PackageGenerator) (group version kind : String),
      (∀ crg ∈ pg.customResourceGenerators, ∀ p ∈ crg.schemas,
        getToken crg.group p.1 crg.kind = getToken group version kind →
        (nestedMap p.2 "properties").isSome = false ∧
        (nestedBool p.2 "x-kubernetes-preserve-unknown-fields").getD false = false) →
      getToken group version kind ∉ resourceTokensOf pg
      ∧ ∀ types : TypesMap,
        lookupPair (buildPkgSpec types (resourceTokensOf pg)).resources
          (getToken group version kind) = none) := by
  refine ⟨?_, ?_, ?_⟩
  · exact fun g k st v schema h1 h2 => processVersion_skip g k st v schema h1 h2
  · intro pg h
    have hrun : runGetTypes pg = ⟨[], []⟩ :=
      getTypes_skip pg.customResourceGenerators h ⟨[], []⟩
    exact ⟨hrun, fun group version kind => by rw [hrun]; rfl⟩
  · intro pg group version kind h
    have hnot : getToken group version kind ∉ resourceTokensOf pg := by
      intro hmem
      obtain ⟨crg, hcrg, hv⟩ := mem_resourceTokensOf pg.customResourceGenerators _ hmem
      obtain ⟨p, hp, hqual, ht⟩ := mem_versionTokens crg.group crg.kind crg.schemas _ hv
      have hcon := h crg hcrg p hp ht.symm
      rcases hqual with h1 | h1
      · rw [hcon.1] at h1
        exact absurd h1 (by simp)
      · rw [hcon.2] at h1
        exact absurd h1 (by simp)
    refine ⟨hnot, fun types => ?_⟩
    exact lookupPair_buildResources_absent types (resourceTokensOf pg) _ hnot

theorem claim7_witness :
    processVersion "g" "K" ⟨[], []⟩ "v1" [("type", Value.vstr "object")] = ⟨[], []⟩
    ∧ lookupPair (runGetTypes ⟨[⟨"g", "K", [("v1", [("type", Value.vstr "object")])]⟩]⟩).types
        (getToken "g" "v1" "K") = none
    ∧ getToken "g" "v1" "K" ∉
        resourceTokensOf ⟨[⟨"g", "K", [("v1", [("type", Value.vstr "object")])]⟩]⟩
    ∧ lookupPair (buildPkgSpec [] (resourceTokensOf
        ⟨[⟨"g", "K", [("v1", [("type", Value.vstr "object")])]⟩]⟩)).resources
        (getToken "g" "v1" "K") = none := by
  have h := claim7_skip_unqualified
  have h3 := h.2.2 ⟨[⟨"g", "K", [("v1", [("type", Value.vstr "object")])]⟩]⟩ "g" "v1" "K"
    (by
      intro crg hcrg p hp hteq
      simp only [List.mem_singleton] at hcrg
      subst hcrg
      simp only [List.mem_singleton] at hp
      subst hp
      exact ⟨rfl, rfl⟩)
  refine ⟨h.1 "g" "K" ⟨[], []⟩ "v1" [("type", Value.vstr "object")] rfl rfl, ?_, h3.1, h3.2 []⟩
  exact (h.2.1 ⟨[⟨"g", "K", [("v1", [("type", Value.vstr "object")])]⟩]⟩
    (by simp [nestedMap, nestedBool, lookupPair, asObjOpt])).2 "g" "v1" "K"

/-- Writing a property through a registry entry that aliases the shared
`emptySpec` map mutates the shared map, not the entry. -/
theorem setProp_shared {types : TypesMap} {token : String}
    (shared : List (String × PropertySpec)) (pname : String) (p : PropertySpec)
    (h : lookupPair types token = some sharedEmptySpec) :
    setProp ⟨types, shared⟩ token pname p = ⟨types, insertPair shared pname p⟩ := by
  simp [setProp, h, sharedEmptySpec]

/-- C9: when a version schema has both a properties map and the
preserve-unknown-fields flag, `GetTypes` first registers the
properties-derived type (a fresh own map) under the resource token and
then overwrites that entry with the shared `emptySpec`; in a
single-resource run the final entry under the token is the shared
placeholder whose property names are exactly the three injected fields
apiVersion, kind, metadata (none of the schema's own properties), with
this resource's constants. -/
theorem claim9_preserve_overwrites (group kind version : String) (schema : JObj)
    (hp : (nestedMap schema "properties").isSome = true)
    (hu : (nestedBool schema "x-kubernetes-preserve-unknown-fields").getD false = true) :
    (∃ p props, lookupPair (AddType schema (getToken group version kind) [])
        (getToken group version kind) = some p ∧ p.propsRef = .own props)
    ∧ lookupPair (runGetTypes ⟨[⟨group, kind, [(version, schema)]⟩]⟩).types
        (getToken group version kind) = some sharedEmptySpec
    ∧ (materializeProps (runGetTypes ⟨[⟨group, kind, [(version, schema)]⟩]⟩).shared
        sharedEmptySpec.propsRef).map Prod.fst = ["apiVersion", "kind", "metadata"]
    ∧ lookupPair (runGetTypes ⟨[⟨group, kind, [(version, schema)]⟩]⟩).shared "apiVersion"
        = some (strPropConst (group ++ "/" ++ version))
    ∧ lookupPair (runGetTypes ⟨[⟨group, kind, [(version, schema)]⟩]⟩).shared "kind"
        = some (strPropConst kind)
    ∧ lookupPair (runGetTypes ⟨[⟨group, kind, [(version, schema)]⟩]⟩).shared "metadata"
        = some metadataProp := by
  have htok : lookupPair (AddType schema (getToken group version kind) [])
      (getToken group version kind) = some ⟨(if (nestedMap schema "properties").isSome &&
        (nestedStringD schema "type" == "") then "object" else nestedStringD schema "type"),
      .own (addProps (propsOf schema) (getToken group version kind) [] []).1,
      (nestedStringSlice schema "required").getD [], nestedStringD schema "description"⟩ := by
    rw [addType_unfold, lookupPair_insertPair]
    simp
  have hrun : runGetTypes ⟨[⟨group, kind, [(version, schema)]⟩]⟩ =
      ⟨insertPair (AddType schema (getToken group version kind) [])
        (getToken group version kind) sharedEmptySpec,
       [("apiVersion", strPropConst (group ++ "/" ++ version)),
        ("kind", strPropConst kind), ("metadata", metadataProp)]⟩ := by
    show processCRG ⟨[], []⟩ ⟨group, kind, [(version, schema)]⟩ = _
    show processVersion group kind ⟨[], []⟩ version schema = _
    rw [processVersion]
    simp only [hp, hu, if_true, Bool.true_or, if_pos rfl]
    have hl1 : lookupPair (insertPair (AddType schema (getToken group version kind) [])
        (getToken group version kind) sharedEmptySpec) (getToken group version kind)
        = some sharedEmptySpec := by
      rw [lookupPair_insertPair]
      simp
    rw [setProp_shared _ _ _ hl1, setProp_shared _ _ _ hl1, setProp_shared _ _ _ hl1]
    simp [insertPair]
  refine ⟨⟨_, _, htok, rfl⟩, ?_, ?_, ?_, ?_, ?_⟩ <;> rw [hrun]
  · rw [lookupPair_insertPair]
    simp
  · rfl
  · rfl
  · rfl
  · rfl

theorem claim9_witness :
    lookupPair (runGetTypes ⟨[⟨"example.com", "Foo",
        [("v1", [("properties", Value.vobj [("a", Value.vobj [("type", Value.vstr "string")])]),
          ("x-kubernetes-preserve-unknown-fields", Value.vbool true)])]⟩]⟩).types
      (getToken "example.com" "v1" "Foo") = some sharedEmptySpec
    ∧ (materializeProps (runGetTypes ⟨[⟨"example.com", "Foo",
        [("v1", [("properties", Value.vobj [("a", Value.vobj [("type", Value.vstr "string")])]),
          ("x-kubernetes-preserve-unknown-fields", Value.vbool true)])]⟩]⟩).shared
        sharedEmptySpec.propsRef).map Prod.fst = ["apiVersion", "kind", "metadata"] := by
  have h := claim9_preserve_overwrites "example.com" "Foo" "v1"
    [("properties", Value.vobj [("a", Value.vobj [("type", Value.vstr "string")])]),
     ("x-kubernetes-preserve-unknown-fields", Value.vbool true)] rfl rfl
  exact ⟨h.2.1, h.2.2.1⟩

/-- The failing input for C4: two CRDs, both with only the
preserve-unknown-fields escape hatch set. -/
def c4pg : PackageGenerator :=
  ⟨[⟨"example.com", "Foo", [("v1", [("x-kubernetes-preserve-unknown-fields", Value.vbool true)])]⟩,
    ⟨"other.org", "Bar", [("v2", [("x-kubernetes-preserve-unknown-fields", Value.vbool true)])]⟩]⟩

/-- C4 (code bug): both resources' registry entries alias the single
package-level `emptySpec` Properties map, so after the run the type
registered under the FIRST resource's token carries the SECOND
resource's injected constants: apiVersion "other.org/v2" and kind
"Bar" instead of "example.com/v1" and "Foo". -/
theorem claim4_shared_emptySpec_aliasing :
    lookupPair (runGetTypes c4pg).types (getToken "example.com" "v1" "Foo") = some sharedEmptySpec
    ∧ (lookupPair (materializeProps (runGetTypes c4pg).shared sharedEmptySpec.propsRef)
        "apiVersion").map PropertySpec.constV = some (some (Value.vstr "other.org/v2"))
    ∧ (lookupPair (materializeProps (runGetTypes c4pg).shared sharedEmptySpec.propsRef)
        "kind").map PropertySpec.constV = some (some (Value.vstr "Bar"))
    ∧ some (Value.vstr "other.org/v2") ≠ some (Value.vstr "example.com/v1") := by
  refine ⟨rfl, rfl, rfl, by simp⟩

/-! Claims about the Package Builder. -/

theorem lookupPair_none_filter {α : Type} (m : List (String × α)) {k : String}
    (h : lookupPair m k = none) : m.filter (fun p => p.1 != k) = m := by
  induction m with
  | nil => rfl
  | cons p rest ih =>
    obtain ⟨k2, v2⟩ := p
    simp only [lookupPair] at h
    by_cases h2 : k2 = k
    · rw [if_pos h2] at h
      exact absurd h (by simp)
    · rw [if_neg h2] at h
      simp only [List.filter_cons]
      rw [show ((k2 != k : Bool) = true) by simpa using h2]
      simp only [if_true]
      rw [ih h]

/-- C5 (corrected): with the metadata placeholder requested,
`genPackage` inserts the stub under the metadata token and, when the
external validator succeeds (and no caller entry already used that
token), deletes it again, leaving the registry exactly as found; but
on the validator-error path the function returns early and the stub is
NOT removed — the registry is handed back with the stub still in it. -/
theorem claim5_metadata_stub {α : Type} (importSpec : PackageSpec → Except String α)
    (emptyPkg : α) (types : TypesMap) (rts : List String)
    (hfree : lookupPair types objectMetaToken = none) :
    (∀ pkg, importSpec (buildPkgSpec (insertPair types objectMetaToken metaStub) rts) = .ok pkg →
      (genPackage importSpec emptyPkg types rts true).2 = types)
    ∧ (∀ e, importSpec (buildPkgSpec (insertPair types objectMetaToken metaStub) rts) = .error e →
      (genPackage importSpec emptyPkg types rts true).2 = insertPair types objectMetaToken metaStub
      ∧ lookupPair (genPackage importSpec emptyPkg types rts true).2 objectMetaToken
          = some metaStub) := by
  have hfilter : types.filter (fun p => p.1 != objectMetaToken) = types :=
    lookupPair_none_filter types hfree
  constructor
  · intro pkg hok
    simp only [genPackage, if_true, hok]
    simp [erasePair, insertPair, List.filter_append, hfilter]
  · intro e herr
    have hgen : (genPackage importSpec emptyPkg types rts true).2
        = insertPair types objectMetaToken metaStub := by
      simp only [genPackage, if_true, herr]
    refine ⟨hgen, ?_⟩
    rw [hgen, lookupPair_insertPair]
    simp

theorem claim5_witness :
    (genPackage (fun _ => (Except.ok () : Except String Unit)) () ([] : TypesMap) [] true).2
      = [] :=
  (claim5_metadata_stub (fun _ => Except.ok ()) () [] [] rfl).1 () rfl

theorem claim5_counterexample :
    (genPackage (fun _ => (Except.error "e" : Except String Unit)) () ([] : TypesMap) [] true).2
      = [(objectMetaToken, metaStub)]
    ∧ (genPackage (fun _ => (Except.error "e" : Except String Unit)) () ([] : TypesMap) [] true).2
      ≠ ([] : TypesMap) := by
  constructor
  · rfl
  · intro h
    have h2 : ([(objectMetaToken, metaStub)] : TypesMap) = [] :=
      (show ([(objectMetaToken, metaStub)] : TypesMap) =
        (genPackage (fun _ => (Except.error "e" : Except String Unit)) () ([] : TypesMap) [] true).2
        from rfl).trans h
    simp at h2

/-- C8 (corrected): whenever the external validator rejects the
assembled document, `genPackage` returns the empty package value
together with a single error that wraps the validator's diagnostic with
the context "could not import spec" (not "could not assemble package"),
leaving the inserted stub in the registry. -/
theorem claim8_wrap_error {α : Type} (importSpec : PackageSpec → Except String α)
    (emptyPkg : α) (types : TypesMap) (rts : List String) (incl : Bool) (e : String)
    (h : importSpec (buildPkgSpec
        (if incl then insertPair types objectMetaToken metaStub else types) rts) = .error e) :
    genPackage importSpec emptyPkg types rts incl =
      ((emptyPkg, some ("could not import spec: " ++ e)),
       if incl then insertPair types objectMetaToken metaStub else types) := by
  simp only [genPackage, h]

theorem claim8_witness :
    genPackage (fun _ => (Except.error "boom" : Except String Unit)) () ([] : TypesMap) [] false =
      (((), some ("could not import spec: " ++ "boom")), []) :=
  claim8_wrap_error (fun _ => Except.error "boom") () [] [] false "boom" rfl

theorem claim8_counterexample :
    (genPackage (fun _ => (Except.error "boom" : Except String Unit)) () ([] : TypesMap) [] false).1.2
      = some "could not import spec: boom"
    ∧ some "could not import spec: boom" ≠ some "could not assemble package: boom" := by
  exact ⟨rfl, by simp⟩

/-! Claim about the Schema Combinator. -/

theorem findSomeP_append {β : Type} (a b : List JObj) (f : JObj → Option β) :
    (a ++ b).findSome? f =
      match a.findSome? f with
      | some r => some r
      | none => b.findSome? f := by
  induction a with
  | nil => simp
  | cons s rest ih =>
    simp only [List.cons_append, List.findSome?_cons]
    cases f s with
    | none => exact ih
    | some r => rfl

theorem combineProps1_lookup : ∀ props : JObj, (props.map Prod.fst).Nodup →
    ∀ (acc : JObj) (k : String),
    lookupPair (combineProps1 acc props) k =
      match lookupPair props k with
      | some v => some (Value.vobj (asObj v))
      | none => lookupPair acc k := by
  intro props
  induction props with
  | nil => intro hnd acc k; rfl
  | cons q rest ih =>
    intro hnd acc k
    obtain ⟨p, v⟩ := q
    simp only [List.map_cons, List.nodup_cons] at hnd
    rw [combineProps1]
    rw [ih hnd.2]
    by_cases hk : p = k
    · subst hk
      have hnone : lookupPair rest p = none := by
        apply lookupPair_eq_none_of_not_mem
        intro q hq hq1
        exact hnd.1 (hq1 ▸ List.mem_map_of_mem Prod.fst hq)
      rw [hnone]
      simp only [lookupPair, if_pos rfl]
      rw [lookupPair_insertPair]
      simp
    · simp only [lookupPair, if_neg hk]
      cases hr : lookupPair rest k with
      | some w => rfl
      | none =>
        rw [lookupPair_insertPair]
        rw [if_neg hk]

theorem combinePropsAll_lookup : ∀ objs : List JObj,
    (∀ s ∈ objs, ((propsOf s).map Prod.fst).Nodup) →
    ∀ (acc : JObj) (k : String),
    lookupPair (combinePropsAll acc objs) k =
      match objs.reverse.findSome? (fun s => lookupPair (propsOf s) k) with
      | some v => some (Value.vobj (asObj v))
      | none => lookupPair acc k := by
  intro objs
  induction objs with
  | nil => intro h acc k; rfl
  | cons s rest ih =>
    intro h acc k
    rw [combinePropsAll]
    rw [ih (fun q hq => h q (by simp [hq]))]
    simp only [List.reverse_cons]
    rw [findSomeP_append]
    cases hr : rest.reverse.findSome? (fun s2 => lookupPair (propsOf s2) k) with
    | some w => rfl
    | none =>
      simp only [List.findSome?_cons, List.findSome?_nil]
      rw [combineProps1_lookup (propsOf s) (h s (by simp)) acc k]
      cases hs : lookupPair (propsOf s) k with
      | some v => rfl
      | none => rfl

theorem combinedRequiredAll_eq_foldr : ∀ l : List JObj,
    combinedRequiredAll l =
      l.foldr (fun s acc => (nestedStringSlice s "required").getD [] ++ acc) [] := by
  intro l
  induction l with
  | nil => rfl
  | cons s rest ih => rw [combinedRequiredAll, ih]; rfl

/-- C6: `CombineSchemas` of exactly one schema is that schema unchanged
(no synthetic wrapper); of two or more schemas it is a synthetic
object-typed schema whose properties are the union of all input
properties with the LAST schema carrying a key winning (the rightmost
binding found), and whose `required` key is the in-order concatenation
of all input required lists exactly when `combineRequired` is set (and
absent otherwise). -/
theorem claim6_combine (b : Bool) :
    (∀ s : JObj, CombineSchemas b [s] = some s)
    ∧ (∀ (s1 s2 : JObj) (rest : List JObj),
        (∀ s ∈ s1 :: s2 :: rest, ((propsOf s).map Prod.fst).Nodup) →
        ∃ c : JObj, CombineSchemas b (s1 :: s2 :: rest) = some c
        ∧ nestedString c "type" = some "object"
        ∧ (∃ P, nestedMap c "properties" = some P ∧ ∀ k : String,
            lookupPair P k =
              match (s1 :: s2 :: rest).reverse.findSome? (fun s => lookupPair (propsOf s) k) with
              | some v => some (Value.vobj (asObj v))
              | none => none)
        ∧ (b = true → nestedStringSlice c "required" = some ((s1 :: s2 :: rest).foldr
            (fun s acc => (nestedStringSlice s "required").getD [] ++ acc) []))
        ∧ (b = false → lookupPair c "required" = none)) := by
  constructor
  · intro s; rfl
  · intro s1 s2 rest hnd
    have hP : ∀ k : String, lookupPair (combinePropsAll [] (s1 :: s2 :: rest)) k =
        match (s1 :: s2 :: rest).reverse.findSome? (fun s => lookupPair (propsOf s) k) with
        | some v => some (Value.vobj (asObj v))
        | none => none := by
      intro k
      rw [combinePropsAll_lookup (s1 :: s2 :: rest) hnd [] k]
      cases (s1 :: s2 :: rest).reverse.findSome? (fun s => lookupPair (propsOf s) k) with
      | some v => rfl
      | none => rfl
    cases b with
    | true =>
      refine ⟨[("type", Value.vstr "object"),
        ("properties", Value.vobj (combinePropsAll [] (s1 :: s2 :: rest))),
        ("required", Value.varr ((combinedRequiredAll (s1 :: s2 :: rest)).map Value.vstr))],
        by simp [CombineSchemas], rfl, ⟨_, rfl, hP⟩, ?_, by simp⟩
      intro _
      have hreq2 : lookupPair [("type", Value.vstr "object"),
          ("properties", Value.vobj (combinePropsAll [] (s1 :: s2 :: rest))),
          ("required", Value.varr ((combinedRequiredAll (s1 :: s2 :: rest)).map Value.vstr))]
          "required"
          = some (Value.varr ((combinedRequiredAll (s1 :: s2 :: rest)).map Value.vstr)) := by
        simp [lookupPair]
      show (lookupPair _ "required").bind _ = _
      rw [hreq2]
      simp only [Option.some_bind]
      rw [allStrings_map_vstr, combinedRequiredAll_eq_foldr]
    | false =>
      exact ⟨[("type", Value.vstr "object"),
        ("properties", Value.vobj (combinePropsAll [] (s1 :: s2 :: rest)))],
        by simp [CombineSchemas], rfl, ⟨_, rfl, hP⟩, by simp, fun _ => rfl⟩

theorem claim6_witness :
    CombineSchemas true [[("type", Value.vstr "string")]] = some [("type", Value.vstr "string")]
    ∧ (∃ c : JObj, CombineSchemas true
          [[("properties", Value.vobj [("a", Value.vobj [("type", Value.vstr "string")])]),
            ("required", Value.varr [Value.vstr "a"])],
           [("properties", Value.vobj [("a", Value.vobj [("type", Value.vstr "integer")])]),
            ("required", Value.varr [Value.vstr "b"])]] = some c
        ∧ nestedString c "type" = some "object"
        ∧ (∃ P, nestedMap c "properties" = some P ∧ ∀ k : String,
            lookupPair P k =
              match ([[("properties", Value.vobj [("a", Value.vobj [("type", Value.vstr "string")])]),
                  ("required", Value.varr [Value.vstr "a"])],
                 [("properties", Value.vobj [("a", Value.vobj [("type", Value.vstr "integer")])]),
                  ("required", Value.varr [Value.vstr "b"])]] : List JObj).reverse.findSome?
                  (fun s => lookupPair (propsOf s) k) with
              | some v => some (Value.vobj (asObj v))
              | none => none)
        ∧ (true = true → nestedStringSlice c "required" = some
            (([[("properties", Value.vobj [("a", Value.vobj [("type", Value.vstr "string")])]),
                ("required", Value.varr [Value.vstr "a"])],
               [("properties", Value.vobj [("a", Value.vobj [("type", Value.vstr "integer")])]),
                ("required", Value.varr [Value.vstr "b"])]] : List JObj).foldr
              (fun s acc => (nestedStringSlice s "required").getD [] ++ acc) []))
        ∧ (true = false → lookupPair c "required" = none)) :=
  ⟨(claim6_combine true).1 _,
   (claim6_combine true).2 _ _ [] (by decide)⟩

end CrdGen
